import Mathlib

/-!
# Verification of the bgt tag-discovery and pipeline-stage coordinator

Shallow embedding of the bgt sources (`src/version.rs`, `src/fetcher.rs`,
`src/builder.rs`, `src/main.rs`, `src/watcher.rs`) and proofs about them.

Conventions:
* Rust `u32` values are modelled as `Nat`; `str::parse::<u32>` is modelled by
  `parseU32`, which fails exactly when the Rust parse fails (empty input,
  non-digit character, or overflow past `u32::MAX`).
* Rust `HashSet<String>` values are modelled as `List String` manipulated
  only through membership tests, `insertTag` and `removeTag`, so that the
  model stays deterministic while keeping exact set semantics.
* String manipulation is performed on `List Char` (`String.data`) with
  structural recursion so that every definition is kernel-reducible.
-/

namespace BGT

/-- `trim_start_matches('v')`: drop every leading `'v'` character. -/
def stripV : List Char → List Char
  | 'v' :: rest => stripV rest
  | l => l

/-- `trim_start_matches("refs/tags/")`: drop every leading occurrence of the
prefix `refs/tags/`. -/
def stripRefsTags : List Char → List Char
  | 'r' :: 'e' :: 'f' :: 's' :: '/' :: 't' :: 'a' :: 'g' :: 's' :: '/' :: rest =>
      stripRefsTags rest
  | l => l

/-- Rust `str::split(c)` on a single character: always returns at least one
(possibly empty) part. -/
def splitOnChar (c : Char) : List Char → List (List Char)
  | [] => [[]]
  | x :: xs =>
    match splitOnChar c xs with
    | [] => [[x]]
    | h :: t => if x = c then [] :: h :: t else (x :: h) :: t

/-- Rust `str::split("rc")`: split on non-overlapping left-to-right
occurrences of the two-character substring `rc`. -/
def splitRc : List Char → List (List Char)
  | [] => [[]]
  | 'r' :: 'c' :: rest => [] :: splitRc rest
  | x :: rest =>
    match splitRc rest with
    | [] => [[x]]
    | h :: t => (x :: h) :: t

/-- Numeric value of a list of ASCII digits. -/
def digitsVal (l : List Char) : Nat :=
  l.foldl (fun a c => a * 10 + (c.toNat - 48)) 0

/-- Rust `str::parse::<u32>()`: an optional leading `'+'`, then at least one
ASCII digit, and the value must fit in a `u32`; otherwise the parse fails. -/
def parseU32 (l : List Char) : Option Nat :=
  let l := match l with
    | '+' :: rest => rest
    | _ => l
  if l = [] then none
  else if l.all Char.isDigit then
    let n := digitsVal l
    if n ≤ 4294967295 then some n else none
  else none

/-- `version.rs::parse_version`: strip leading `v`s, split on `rc`; the part
before the first `rc` is split on `.` into numeric components where any
component that fails to parse defaults to `0`; the part between the first and
second `rc` (if present) is the rc number when it parses. -/
def parse_version (v : String) : List Nat × Option Nat :=
  let cs := stripV v.data
  let parts := splitRc cs
  let versionParts := (splitOnChar '.' (parts.headD [])).map
    (fun s => (parseU32 s).getD 0)
  let rc := (parts.get? 1).bind parseU32
  (versionParts, rc)

/-- `u32::cmp` (also used for the rc numbers). -/
def cmpNat (a b : Nat) : Ordering :=
  if a < b then .lt else if a = b then .eq else .gt

/-- `Iterator::cmp`: lexicographic comparison of two lists of `u32`. -/
def cmpListNat : List Nat → List Nat → Ordering
  | [], [] => .eq
  | [], _ :: _ => .lt
  | _ :: _, [] => .gt
  | a :: as', b :: bs' =>
    match cmpNat a b with
    | .eq => cmpListNat as' bs'
    | o => o

/-- `Option::<u32>::cmp`: `None` is less than any `Some`. -/
def cmpOptNat : Option Nat → Option Nat → Ordering
  | none, none => .eq
  | none, some _ => .lt
  | some _, none => .gt
  | some a, some b => cmpNat a b

/-- The rc comparison of `version.rs::compare_versions`: no rc is greater
than any rc; two rc numbers compare numerically. -/
def cmpRc : Option Nat → Option Nat → Ordering
  | none, none => .eq
  | some _, none => .lt
  | none, some _ => .gt
  | some a, some b => cmpNat a b

/-- `version.rs::compare_versions`: compare the first two components
lexicographically, then the (optional) third component, then the rc markers. -/
def compare_versions (a b : String) : Ordering :=
  let pa := parse_version a
  let pb := parse_version b
  match cmpListNat (pa.1.take 2) (pb.1.take 2) with
  | .eq =>
    match cmpOptNat (pa.1.get? 2) (pb.1.get? 2) with
    | .eq => cmpRc pa.2 pb.2
    | o => o
  | o => o

/-! ## Comparator laws -/

theorem cmpNat_eq_iff (a b : Nat) : cmpNat a b = .eq ↔ a = b := by
  unfold cmpNat
  split_ifs with h1 h2
  · exact iff_of_false (by decide) (by omega)
  · exact iff_of_true rfl h2
  · exact iff_of_false (by decide) (by omega)

theorem cmpNat_lt_iff (a b : Nat) : cmpNat a b = .lt ↔ a < b := by
  unfold cmpNat
  split_ifs with h1 h2
  · exact iff_of_true rfl h1
  · exact iff_of_false (by decide) (by omega)
  · exact iff_of_false (by decide) (by omega)

theorem cmpNat_swap (a b : Nat) : cmpNat b a = (cmpNat a b).swap := by
  unfold cmpNat
  split_ifs <;> first | rfl | omega

theorem cmpNat_lt_trans {a b c : Nat} (h1 : cmpNat a b = .lt)
    (h2 : cmpNat b c = .lt) : cmpNat a c = .lt := by
  rw [cmpNat_lt_iff] at *; omega

theorem cmpListNat_eq_iff : ∀ l1 l2 : List Nat, cmpListNat l1 l2 = .eq ↔ l1 = l2
  | [], [] => by simp [cmpListNat]
  | [], _ :: _ => by simp [cmpListNat]
  | _ :: _, [] => by simp [cmpListNat]
  | a :: as', b :: bs' => by
    simp only [cmpListNat]
    rcases h : cmpNat a b with _ | _ | _
    · simp [(cmpNat_eq_iff a b).not.mp (by simp [h])]
    · rw [(cmpNat_eq_iff a b).mp h]
      simp [cmpListNat_eq_iff as' bs']
    · simp [(cmpNat_eq_iff a b).not.mp (by simp [h])]

theorem cmpListNat_swap : ∀ l1 l2 : List Nat,
    cmpListNat l2 l1 = (cmpListNat l1 l2).swap
  | [], [] => by simp [cmpListNat, Ordering.swap]
  | [], _ :: _ => by simp [cmpListNat, Ordering.swap]
  | _ :: _, [] => by simp [cmpListNat, Ordering.swap]
  | a :: as', b :: bs' => by
    simp only [cmpListNat, cmpNat_swap a b]
    rcases cmpNat a b with _ | _ | _ <;>
      simp [Ordering.swap, cmpListNat_swap as' bs']

theorem cmpListNat_lt_trans : ∀ {l1 l2 l3 : List Nat},
    cmpListNat l1 l2 = .lt → cmpListNat l2 l3 = .lt → cmpListNat l1 l3 = .lt
  | [], [], _, h1, _ => by simp [cmpListNat] at h1
  | [], _ :: _, [], _, h2 => by simp [cmpListNat] at h2
  | [], _ :: _, _ :: _, _, _ => by simp [cmpListNat]
  | _ :: _, [], _, h1, _ => by simp [cmpListNat] at h1
  | _ :: _, _ :: _, [], _, h2 => by simp [cmpListNat] at h2
  | a :: as', b :: bs', c :: cs', h1, h2 => by
    simp only [cmpListNat] at h1 h2 ⊢
    rcases hab : cmpNat a b with _ | _ | _ <;> rw [hab] at h1 <;>
      rcases hbc : cmpNat b c with _ | _ | _ <;> rw [hbc] at h2 <;>
        try simp_all
    · rw [cmpNat_lt_trans hab hbc]
    · rw [(cmpNat_eq_iff b c).mp hbc] at hab; rw [hab]
    · rw [← (cmpNat_eq_iff a b).mp hab] at hbc; rw [hbc]
    · rw [(cmpNat_eq_iff a b).mp hab, hbc]
      exact cmpListNat_lt_trans h1 h2

theorem cmpOptNat_eq_iff : ∀ o1 o2 : Option Nat, cmpOptNat o1 o2 = .eq ↔ o1 = o2
  | none, none => by simp [cmpOptNat]
  | none, some _ => by simp [cmpOptNat]
  | some _, none => by simp [cmpOptNat]
  | some a, some b => by simp [cmpOptNat, cmpNat_eq_iff]

theorem cmpOptNat_swap : ∀ o1 o2 : Option Nat,
    cmpOptNat o2 o1 = (cmpOptNat o1 o2).swap
  | none, none => by simp [cmpOptNat, Ordering.swap]
  | none, some _ => by simp [cmpOptNat, Ordering.swap]
  | some _, none => by simp [cmpOptNat, Ordering.swap]
  | some a, some b => by simp [cmpOptNat, cmpNat_swap a b]

theorem cmpOptNat_lt_trans : ∀ {o1 o2 o3 : Option Nat},
    cmpOptNat o1 o2 = .lt → cmpOptNat o2 o3 = .lt → cmpOptNat o1 o3 = .lt
  | none, none, _, h1, _ => by simp [cmpOptNat] at h1
  | none, some _, none, _, h2 => by simp [cmpOptNat] at h2
  | none, some _, some _, _, _ => by simp [cmpOptNat]
  | some _, none, _, h1, _ => by simp [cmpOptNat] at h1
  | some _, some _, none, _, h2 => by simp [cmpOptNat] at h2
  | some a, some b, some c, h1, h2 => by
    simp only [cmpOptNat] at h1 h2 ⊢
    exact cmpNat_lt_trans h1 h2

theorem cmpRc_eq_iff : ∀ o1 o2 : Option Nat, cmpRc o1 o2 = .eq ↔ o1 = o2
  | none, none => by simp [cmpRc]
  | none, some _ => by simp [cmpRc]
  | some _, none => by simp [cmpRc]
  | some a, some b => by simp [cmpRc, cmpNat_eq_iff]

theorem cmpRc_swap : ∀ o1 o2 : Option Nat, cmpRc o2 o1 = (cmpRc o1 o2).swap
  | none, none => by simp [cmpRc, Ordering.swap]
  | none, some _ => by simp [cmpRc, Ordering.swap]
  | some _, none => by simp [cmpRc, Ordering.swap]
  | some a, some b => by simp [cmpRc, cmpNat_swap a b]

theorem cmpRc_lt_trans : ∀ {o1 o2 o3 : Option Nat},
    cmpRc o1 o2 = .lt → cmpRc o2 o3 = .lt → cmpRc o1 o3 = .lt
  | none, none, _, h1, _ => by simp [cmpRc] at h1
  | none, some _, _, h1, _ => by simp [cmpRc] at h1
  | some _, none, none, _, h2 => by simp [cmpRc] at h2
  | some _, none, some _, _, h2 => by simp [cmpRc] at h2
  | some _, some _, none, _, _ => by simp [cmpRc]
  | some a, some b, some c, h1, h2 => by
    simp only [cmpRc] at h1 h2 ⊢
    exact cmpNat_lt_trans h1 h2

/-- The projection of a tag through `parse_version` onto the data that
`compare_versions` actually inspects. -/
def versionKey (v : String) : List Nat × Option Nat × Option Nat :=
  let p := parse_version v
  (p.1.take 2, p.1.get? 2, p.2)

/-- `compare_versions` as a function of the two projected keys. -/
def versionKeyCmp (x y : List Nat × Option Nat × Option Nat) : Ordering :=
  match cmpListNat x.1 y.1 with
  | .eq =>
    match cmpOptNat x.2.1 y.2.1 with
    | .eq => cmpRc x.2.2 y.2.2
    | o => o
  | o => o

theorem compare_versions_eq_keyCmp (a b : String) :
    compare_versions a b = versionKeyCmp (versionKey a) (versionKey b) := rfl

theorem versionKeyCmp_eq_iff (x y : List Nat × Option Nat × Option Nat) :
    versionKeyCmp x y = .eq ↔ x = y := by
  obtain ⟨x1, x2, x3⟩ := x
  obtain ⟨y1, y2, y3⟩ := y
  simp only [versionKeyCmp]
  rcases h1 : cmpListNat x1 y1 with _ | _ | _
  · simp [(cmpListNat_eq_iff x1 y1).not.mp (by simp [h1])]
  · rcases h2 : cmpOptNat x2 y2 with _ | _ | _
    · simp [(cmpOptNat_eq_iff x2 y2).not.mp (by simp [h2])]
    · rw [(cmpListNat_eq_iff x1 y1).mp h1, (cmpOptNat_eq_iff x2 y2).mp h2]
      simp [cmpRc_eq_iff]
    · simp [(cmpOptNat_eq_iff x2 y2).not.mp (by simp [h2])]
  · simp [(cmpListNat_eq_iff x1 y1).not.mp (by simp [h1])]

theorem versionKeyCmp_swap (x y : List Nat × Option Nat × Option Nat) :
    versionKeyCmp y x = (versionKeyCmp x y).swap := by
  obtain ⟨x1, x2, x3⟩ := x
  obtain ⟨y1, y2, y3⟩ := y
  simp only [versionKeyCmp, cmpListNat_swap x1 y1, cmpOptNat_swap x2 y2,
    cmpRc_swap x3 y3]
  rcases cmpListNat x1 y1 with _ | _ | _ <;>
    rcases cmpOptNat x2 y2 with _ | _ | _ <;> simp [Ordering.swap]

theorem versionKeyCmp_lt_trans {x y z : List Nat × Option Nat × Option Nat}
    (h1 : versionKeyCmp x y = .lt) (h2 : versionKeyCmp y z = .lt) :
    versionKeyCmp x z = .lt := by
  obtain ⟨x1, x2, x3⟩ := x
  obtain ⟨y1, y2, y3⟩ := y
  obtain ⟨z1, z2, z3⟩ := z
  simp only [versionKeyCmp] at h1 h2 ⊢
  rcases hxy1 : cmpListNat x1 y1 with _ | _ | _ <;> rw [hxy1] at h1 <;>
    rcases hyz1 : cmpListNat y1 z1 with _ | _ | _ <;> rw [hyz1] at h2 <;>
      try simp_all
  · rw [cmpListNat_lt_trans hxy1 hyz1]
  · rw [(cmpListNat_eq_iff y1 z1).mp hyz1] at hxy1; rw [hxy1]
  · rw [← (cmpListNat_eq_iff x1 y1).mp hxy1] at hyz1; rw [hyz1]
  · rw [(cmpListNat_eq_iff x1 y1).mp hxy1, hyz1]
    rcases hxy2 : cmpOptNat x2 y2 with _ | _ | _ <;> rw [hxy2] at h1 <;>
      rcases hyz2 : cmpOptNat y2 z2 with _ | _ | _ <;> rw [hyz2] at h2 <;>
        try simp_all
    · rw [cmpOptNat_lt_trans hxy2 hyz2]
    · rw [(cmpOptNat_eq_iff y2 z2).mp hyz2] at hxy2; rw [hxy2]
    · rw [← (cmpOptNat_eq_iff x2 y2).mp hxy2] at hyz2; rw [hyz2]
    · rw [(cmpOptNat_eq_iff x2 y2).mp hxy2, hyz2]
      exact cmpRc_lt_trans h1 h2

theorem compare_versions_swap (a b : String) :
    compare_versions b a = (compare_versions a b).swap := by
  rw [compare_versions_eq_keyCmp, compare_versions_eq_keyCmp,
    versionKeyCmp_swap]

theorem compare_versions_eq_key {a b : String}
    (h : compare_versions a b = .eq) : versionKey a = versionKey b :=
  (versionKeyCmp_eq_iff _ _).mp (compare_versions_eq_keyCmp a b ▸ h)

theorem compare_versions_lt_trans {a b c : String}
    (h1 : compare_versions a b = .lt) (h2 : compare_versions b c = .lt) :
    compare_versions a c = .lt := by
  rw [compare_versions_eq_keyCmp] at *
  exact versionKeyCmp_lt_trans h1 h2

theorem compare_versions_congr_left {a b c : String}
    (h : compare_versions a b = .eq) :
    compare_versions a c = compare_versions b c := by
  rw [compare_versions_eq_keyCmp, compare_versions_eq_keyCmp,
    compare_versions_eq_key h]

theorem compare_versions_congr_right {a b c : String}
    (h : compare_versions b c = .eq) :
    compare_versions a c = compare_versions a b := by
  rw [compare_versions_eq_keyCmp, compare_versions_eq_keyCmp,
    compare_versions_eq_key h]

theorem cmpNat_gt_iff (a b : Nat) : cmpNat a b = .gt ↔ b < a := by
  unfold cmpNat
  split_ifs with h1 h2
  · exact iff_of_false (by decide) (by omega)
  · exact iff_of_false (by decide) (by omega)
  · exact iff_of_true rfl (by omega)

/-! ## TagStore / fetcher model (`src/fetcher.rs`) -/

/-- The tag name of one fetched GitHub ref:
`ref_str.trim_start_matches("refs/tags/")`. -/
def stripName (r : String) : String := ⟨stripRefsTags r.data⟩

/-- `HashSet::insert`: add a tag unless it is already present. -/
def insertTag (s : List String) (t : String) : List String :=
  if t ∈ s then s else s ++ [t]

/-- `HashSet::remove`. -/
def removeTag (s : List String) (t : String) : List String :=
  s.filter (fun x => decide (x ≠ t))

/-- `fetcher.rs::check_for_new_tags` (success path of the fetch): walk the
fetched refs in order; each tag name not yet in `seen_tags` is pushed onto
`new_tags` and inserted into `seen_tags`. Returns the updated seen set and
the new tags in fetch order. -/
def checkForNewTags (seen : List String) : List String → List String × List String
  | [] => (seen, [])
  | r :: rest =>
    let name := stripName r
    if name ∈ seen then checkForNewTags seen rest
    else
      let res := checkForNewTags (seen ++ [name]) rest
      (res.1, name :: res.2)

/-- The per-repository ingestion loop of `fetcher.rs::fetch_all_tags`:
`existing_tags.insert(tag_name)` reports whether the name was new, and new
names are pushed onto `new_tags` in order. -/
def ingestRefs (existing : List String) : List String → List String × List String
  | [] => (existing, [])
  | r :: rest =>
    let name := stripName r
    if name ∈ existing then ingestRefs existing rest
    else
      let res := ingestRefs (existing ++ [name]) rest
      (res.1, name :: res.2)

/-- `fetcher.rs::read_known_tags`: collect the lines of the file into a set. -/
def readKnownTags (file : List String) : List String :=
  file.foldl insertTag []

/-- The order used by `write_known_tags`'s `sort_by(|a, b|
compare_versions(a, b))`: `a` may come before `b` unless it compares
greater. -/
def vle (a b : String) : Prop := compare_versions a b ≠ .gt

instance : DecidableRel vle := fun a b =>
  inferInstanceAs (Decidable (compare_versions a b ≠ .gt))

/-- `fetcher.rs::write_known_tags`: collect the set's tags in the
`HashSet`'s iteration order and sort them with the stable
`sort_by(|a, b| compare_versions(a, b))`, writing one tag per line and
truncating the previous contents.  The argument is the enumeration the
`HashSet` yields, which is arbitrary; since distinct tags may compare
`Equal`, the written order of such tied tags follows that arbitrary
enumeration (theorems about persistence therefore quantify over all
enumerations of the set wherever the distinction matters). -/
def writeKnownTags (tags : List String) : List String :=
  List.insertionSort vle tags

/-- The bytes of a written known-tags file: each line followed by `\n`
(`writeln!`). -/
def fileOf (lines : List String) : String :=
  lines.foldl (fun acc l => acc ++ l ++ "\n") ""

/-- One repository pass of `fetcher.rs::fetch_all_tags` (success path):
read the known-tags file (an unreadable file yields the empty set), ingest
the fetched refs, and write the merged set back sorted. Returns the merged
tag set and the lines of the file written; the Rust `tag_set` handed back to
the caller equals the merged set (new tags are inserted into it and it is
then `extend`ed with the whole merged set).  The model's merged list stands
for one enumeration of the merged `HashSet`; the enumeration order affects
the written bytes only for distinct tags comparing `Equal`. -/
def fetchAllTagsRepo (file : List String) (refs : List String) :
    List String × List String :=
  let existing := readKnownTags file
  let merged := (ingestRefs existing refs).1
  (merged, writeKnownTags merged)

/-! ### Lemmas about ingestion -/

theorem ingestRefs_eq_checkForNewTags :
    ∀ (refs : List String) (existing : List String),
      ingestRefs existing refs = checkForNewTags existing refs
  | [], _ => rfl
  | r :: rest, existing => by
    simp only [ingestRefs, checkForNewTags]
    split
    · exact ingestRefs_eq_checkForNewTags rest existing
    · rw [ingestRefs_eq_checkForNewTags rest]

/-- The merged set is the existing set with the new tags appended. -/
theorem checkForNewTags_fst : ∀ (refs : List String) (seen : List String),
    (checkForNewTags seen refs).1 = seen ++ (checkForNewTags seen refs).2
  | [], seen => by simp [checkForNewTags]
  | r :: rest, seen => by
    simp only [checkForNewTags]
    split
    · exact checkForNewTags_fst rest seen
    · rw [checkForNewTags_fst rest]
      simp

/-- The new tags are mutually distinct and disjoint from the seen set. -/
theorem checkForNewTags_snd_nodup :
    ∀ (refs : List String) (seen : List String),
      (checkForNewTags seen refs).2.Nodup ∧
        ∀ t ∈ (checkForNewTags seen refs).2, t ∉ seen
  | [], seen => by simp [checkForNewTags]
  | r :: rest, seen => by
    simp only [checkForNewTags]
    split
    · exact checkForNewTags_snd_nodup rest seen
    · rename_i hmem
      obtain ⟨h1, h2⟩ := checkForNewTags_snd_nodup rest (seen ++ [stripName r])
      refine ⟨List.nodup_cons.mpr ⟨fun hc => ?_, h1⟩, ?_⟩
      · exact h2 _ hc (by simp)
      · intro t ht
        rcases List.mem_cons.mp ht with h | h
        · exact h ▸ hmem
        · intro hs
          exact h2 t h (by simp [hs])

/-- A tag already seen stays in the merged set. -/
theorem mem_checkForNewTags_of_seen {x : String} {seen refs : List String}
    (h : x ∈ seen) : x ∈ (checkForNewTags seen refs).1 := by
  rw [checkForNewTags_fst]
  exact List.mem_append_left _ h

/-- Every fetched tag name ends up in the merged set: ingestion performs no
filtering. -/
theorem mem_checkForNewTags_of_ref :
    ∀ (refs : List String) (seen : List String) (r : String), r ∈ refs →
      stripName r ∈ (checkForNewTags seen refs).1
  | [], _, _, h => absurd h (List.not_mem_nil _)
  | r' :: rest, seen, r, h => by
    simp only [checkForNewTags]
    rcases List.mem_cons.mp h with h | h
    · subst h
      split
      · exact mem_checkForNewTags_of_seen ‹_›
      · exact mem_checkForNewTags_of_seen (by simp)
    · split
      · exact mem_checkForNewTags_of_ref rest seen r h
      · exact mem_checkForNewTags_of_ref rest _ r h

/-- If every fetched name is already seen, a cycle discovers nothing and
leaves the seen set unchanged. -/
theorem checkForNewTags_of_all_seen :
    ∀ (refs : List String) (seen : List String),
      (∀ r ∈ refs, stripName r ∈ seen) →
      checkForNewTags seen refs = (seen, [])
  | [], seen, _ => rfl
  | r :: rest, seen, h => by
    simp only [checkForNewTags]
    rw [if_pos (h r (by simp))]
    exact checkForNewTags_of_all_seen rest seen fun r' hr' => h r' (by simp [hr'])

/-- With distinct fetched names, the new tags are exactly the fetched names
not already seen, in fetch order. -/
theorem checkForNewTags_snd_eq_filter :
    ∀ (refs : List String) (seen : List String),
      (refs.map stripName).Nodup →
      (checkForNewTags seen refs).2 =
        (refs.map stripName).filter (fun t => decide (t ∉ seen))
  | [], _, _ => rfl
  | r :: rest, seen, h => by
    simp only [List.map_cons, List.nodup_cons] at h
    obtain ⟨hname, hrest⟩ := h
    simp only [checkForNewTags, List.map_cons, List.filter_cons]
    split
    · rename_i hmem
      rw [checkForNewTags_snd_eq_filter rest seen hrest]
      simp [hmem]
    · rename_i hmem
      rw [checkForNewTags_snd_eq_filter rest (seen ++ [stripName r]) hrest]
      have hEq : List.filter (fun t => decide (t ∉ seen ++ [stripName r]))
          (List.map stripName rest) =
          List.filter (fun t => decide (t ∉ seen)) (List.map stripName rest) := by
        apply List.filter_congr
        intro t ht
        have hne : t ≠ stripName r := fun he => hname (he ▸ ht)
        exact decide_eq_decide.mpr (by simp [hne])
      rw [hEq]
      simp [hmem]

theorem insertTag_nodup {s : List String} (t : String) (h : s.Nodup) :
    (insertTag s t).Nodup := by
  unfold insertTag
  split
  · exact h
  · rename_i hm
    rw [← List.concat_eq_append]
    exact h.concat hm

theorem foldl_insertTag_nodup :
    ∀ (l acc : List String), acc.Nodup → (l.foldl insertTag acc).Nodup
  | [], _, h => h
  | x :: xs, _, h => foldl_insertTag_nodup xs _ (insertTag_nodup x h)

theorem readKnownTags_nodup (file : List String) : (readKnownTags file).Nodup :=
  foldl_insertTag_nodup file [] List.nodup_nil

theorem foldl_insertTag_of_nodup :
    ∀ (l acc : List String), l.Nodup → (∀ x ∈ l, x ∉ acc) →
      l.foldl insertTag acc = acc ++ l
  | [], acc, _, _ => by simp
  | x :: xs, acc, h, hd => by
    simp only [List.nodup_cons] at h
    have hx : x ∉ acc := hd x (by simp)
    simp only [List.foldl_cons, insertTag, if_neg hx]
    rw [foldl_insertTag_of_nodup xs (acc ++ [x]) h.2 ?_]
    · simp
    · intro y hy
      simp only [List.mem_append, List.mem_singleton]
      rintro (hc | hc)
      · exact hd y (by simp [hy]) hc
      · exact h.1 (hc ▸ hy)

/-- Reading back a duplicate-free file recovers exactly its lines. -/
theorem readKnownTags_of_nodup {file : List String} (h : file.Nodup) :
    readKnownTags file = file := by
  unfold readKnownTags
  rw [foldl_insertTag_of_nodup file [] h (by simp)]
  simp

/-- The merged set stays duplicate-free. -/
theorem checkForNewTags_fst_nodup {seen refs : List String} (h : seen.Nodup) :
    (checkForNewTags seen refs).1.Nodup := by
  rw [checkForNewTags_fst]
  obtain ⟨h1, h2⟩ := checkForNewTags_snd_nodup refs seen
  exact List.nodup_append.mpr ⟨h, h1, fun t ht ht' => h2 t ht' ht⟩

/-! ## Builder model (`src/builder.rs`, call sites in `src/main.rs`) -/

/-- `builder.rs::BuildAction`. -/
inductive BuildAction
  | Setup
  | Build
  | NonCodeSigned
  | CodeSigned
  | Clean
deriving DecidableEq

/-- The configuration fields of `config.rs::Config` that the modelled code
reads (paths and the poll interval are opaque to every claim and carried as
plain strings / a number). -/
structure Config where
  repo_owner : String
  repo_name : String
  repo_owner_detached : String
  repo_name_detached : String
  poll_interval : Nat
  signer_name : String
  gpg_key_id : String
  guix_sigs_fork_url : String
  multi_package : Bool
deriving DecidableEq

/-- `builder.rs::Builder`. -/
structure Builder where
  config : Config
  version : String
  action : BuildAction

/-- `builder.rs::Builder::new`: reject any version comparing less than
`"v21.0"` with the message naming `v0.21.0`. -/
def Builder.new (version : String) (action : BuildAction) (config : Config) :
    Except String Builder :=
  if compare_versions version "v21.0" = .lt then
    .error "Can't build versions earlier than v0.21.0"
  else
    .ok { config := config, version := version, action := action }

/-- `main.rs::initialize_builder`: build a `Builder` for the empty version
string and the `Setup` action (its `init` side effects happen only after the
construction succeeds). -/
def initialize_builder (config : Config) : Except String Builder :=
  Builder.new "" BuildAction.Setup config

/-- The `Commands::Clean` arm of `main.rs::main`:
`Builder::new(String::new(), BuildAction::Clean, config)`. -/
def cleanCommandBuilder (config : Config) : Except String Builder :=
  Builder.new "" BuildAction.Clean config

/-! ## PipelineCoordinator model (`src/watcher.rs`)

`watcher.rs` is the final revision of the watcher (the spec's
PipelineCoordinator); `main.rs`/`commands.rs` hold an earlier revision of the
same loop.  The build executor is abstracted as an oracle
`exec : BuildAction → String → Bool` reporting whether `builder.run()`
succeeds for a (stage, tag) pair; `commands.rs::create_builder` is not part
of the sources, so builder construction is modelled from the spec as the
infallible part of the dispatch (its failure path aborts the cycle exactly
like a run failure). -/

/-- Outcome of one polling cycle: the updated seen set, the updated
in-progress set, the `builder.run()` dispatches performed in order, the
error that aborted the cycle (`some (stage, tag)` models the
`with_context(... failed ...)?` early return that `run_watcher` then logs),
and the known-tags file writes performed (`fetcher.rs` writes the file only
from `fetch_all_tags`; the watcher cycles contain no write). -/
structure CycleResult where
  seen : List String
  inProgress : List String
  dispatches : List (BuildAction × String)
  failed : Option (BuildAction × String)
  fileWrites : List (List String)
deriving DecidableEq

/-- The per-tag loop of `watcher.rs::check_and_process_bitcoin_tags`: for
each new tag, create a Build builder, add the tag to `in_progress`, run the
build (`?` aborts the cycle on failure), then run the non-codesigned
attestation (`?` aborts likewise). -/
def processBitcoinTags (exec : BuildAction → String → Bool)
    (inProgress : List String) :
    List String → List String × List (BuildAction × String) × Option (BuildAction × String)
  | [] => (inProgress, [], none)
  | t :: rest =>
    let inProgress1 := insertTag inProgress t
    if exec .Build t then
      if exec .NonCodeSigned t then
        let res := processBitcoinTags exec inProgress1 rest
        (res.1, (.Build, t) :: (.NonCodeSigned, t) :: res.2.1, res.2.2)
      else
        (inProgress1, [(.Build, t), (.NonCodeSigned, t)], some (.NonCodeSigned, t))
    else
      (inProgress1, [(.Build, t)], some (.Build, t))

/-- The per-tag loop of `watcher.rs::check_and_process_sigs_tags`: a new tag
present in `in_progress` gets a codesigned-attestation dispatch (`?` aborts
the cycle on failure) and is removed from `in_progress` on success; a tag
not in `in_progress` only produces a warning. -/
def processSigsTags (exec : BuildAction → String → Bool)
    (inProgress : List String) :
    List String → List String × List (BuildAction × String) × Option (BuildAction × String)
  | [] => (inProgress, [], none)
  | t :: rest =>
    if t ∈ inProgress then
      if exec .CodeSigned t then
        let res := processSigsTags exec (removeTag inProgress t) rest
        (res.1, (.CodeSigned, t) :: res.2.1, res.2.2)
      else
        (inProgress, [(.CodeSigned, t)], some (.CodeSigned, t))
    else
      processSigsTags exec inProgress rest

/-- `watcher.rs::check_and_process_bitcoin_tags` (fetch succeeding): diff
the fetched refs against the seen set, then drive Build +
AttestNonCodesigned over the new tags.  No known-tags file write occurs. -/
def checkAndProcessBitcoinTags (exec : BuildAction → String → Bool)
    (seen inProgress : List String) (refs : List String) : CycleResult :=
  let fetched := checkForNewTags seen refs
  let res := processBitcoinTags exec inProgress fetched.2
  { seen := fetched.1
    inProgress := res.1
    dispatches := res.2.1
    failed := res.2.2
    fileWrites := [] }

/-- `watcher.rs::check_and_process_sigs_tags` (fetch succeeding): diff the
fetched refs against the sigs seen set, then drive AttestCodesigned over the
new tags that are in progress.  No known-tags file write occurs. -/
def checkAndProcessSigsTags (exec : BuildAction → String → Bool)
    (seen inProgress : List String) (refs : List String) : CycleResult :=
  let fetched := checkForNewTags seen refs
  let res := processSigsTags exec inProgress fetched.2
  { seen := fetched.1
    inProgress := res.1
    dispatches := res.2.1
    failed := res.2.2
    fileWrites := [] }

/-- Number of `builder.run()` dispatches of a given stage for a given tag. -/
def countDispatch (ds : List (BuildAction × String)) (s : BuildAction)
    (t : String) : Nat :=
  (ds.filter (fun d => decide (d = (s, t)))).length

/-! ### Lemmas about the watcher loops -/

theorem mem_removeTag {s : List String} {t u : String} :
    u ∈ removeTag s t ↔ u ∈ s ∧ u ≠ t := by
  simp [removeTag]

theorem not_mem_removeTag_self {s : List String} {t : String} :
    t ∉ removeTag s t := fun h => (mem_removeTag.mp h).2 rfl

theorem countDispatch_nil (s : BuildAction) (t : String) :
    countDispatch [] s t = 0 := rfl

theorem countDispatch_cons_self (ds : List (BuildAction × String))
    (s : BuildAction) (t : String) :
    countDispatch ((s, t) :: ds) s t = countDispatch ds s t + 1 := by
  simp [countDispatch]

theorem countDispatch_cons_of_ne (d : BuildAction × String)
    (ds : List (BuildAction × String)) (s : BuildAction) (t : String)
    (h : d ≠ (s, t)) :
    countDispatch (d :: ds) s t = countDispatch ds s t := by
  simp [countDispatch, h]

theorem countDispatch_eq_zero {ds : List (BuildAction × String)}
    {s : BuildAction} {t : String} (h : ∀ d ∈ ds, d ≠ (s, t)) :
    countDispatch ds s t = 0 := by
  unfold countDispatch
  rw [List.filter_eq_nil_iff.mpr (by simpa using h)]
  rfl

/-- Every dispatch of the sigs loop names one of the processed tags. -/
theorem processSigsTags_dispatch_mem (exec : BuildAction → String → Bool) :
    ∀ (tags : List String) (inP : List String) (d : BuildAction × String),
      d ∈ (processSigsTags exec inP tags).2.1 → d.2 ∈ tags
  | [], _, _, h => by simp [processSigsTags] at h
  | t :: rest, inP, d, h => by
    simp only [processSigsTags] at h
    split at h
    · split at h
      · rcases List.mem_cons.mp h with h | h
        · subst h; simp
        · exact List.mem_cons_of_mem _
            (processSigsTags_dispatch_mem exec rest _ d h)
      · simp only [List.mem_singleton] at h
        subst h; simp
    · exact List.mem_cons_of_mem _ (processSigsTags_dispatch_mem exec rest _ d h)

/-- The sigs loop never adds to the in-progress set. -/
theorem processSigsTags_inProgress_subset (exec : BuildAction → String → Bool) :
    ∀ (tags : List String) (inP : List String) (u : String),
      u ∈ (processSigsTags exec inP tags).1 → u ∈ inP
  | [], _, _, h => h
  | t :: rest, inP, u, h => by
    simp only [processSigsTags] at h
    split at h
    · split at h
      · exact (mem_removeTag.mp
          (processSigsTags_inProgress_subset exec rest _ u h)).1
      · exact h
    · exact processSigsTags_inProgress_subset exec rest inP u h

/-- Behaviour of the sigs loop for one newly-seen in-progress tag: its
codesign dispatch happens at most once; exactly once when the whole cycle
succeeds; a dispatched tag is removed on success and kept (with the cycle
aborting on it) on failure; an undispatched tag is kept because some earlier
dispatch aborted the cycle. -/
theorem processSigsTags_spec (exec : BuildAction → String → Bool) :
    ∀ (tags : List String) (inP : List String), tags.Nodup →
      ∀ t ∈ tags, t ∈ inP →
      countDispatch (processSigsTags exec inP tags).2.1 .CodeSigned t ≤ 1 ∧
      ((processSigsTags exec inP tags).2.2 = none →
        countDispatch (processSigsTags exec inP tags).2.1 .CodeSigned t = 1) ∧
      (countDispatch (processSigsTags exec inP tags).2.1 .CodeSigned t = 1 →
        (exec .CodeSigned t = true → t ∉ (processSigsTags exec inP tags).1) ∧
        (exec .CodeSigned t = false → t ∈ (processSigsTags exec inP tags).1 ∧
          (processSigsTags exec inP tags).2.2 = some (.CodeSigned, t))) ∧
      (countDispatch (processSigsTags exec inP tags).2.1 .CodeSigned t = 0 →
        t ∈ (processSigsTags exec inP tags).1 ∧
        (processSigsTags exec inP tags).2.2 ≠ none)
  | [], _, _, t, ht, _ => absurd ht (List.not_mem_nil t)
  | t' :: rest, inP, hnd, t, ht, hin => by
    have hnd' := List.nodup_cons.mp hnd
    rcases List.mem_cons.mp ht with he | hr
    · -- t is the head tag: it is dispatched now.
      subst he
      simp only [processSigsTags, if_pos hin]
      rcases hex : exec .CodeSigned t with _ | _
      · -- dispatch fails: the cycle aborts with t still in progress
        rw [if_neg (by decide)]
        refine ⟨?_, ?_, ?_, ?_⟩
        · rw [countDispatch_cons_self, countDispatch_nil]
        · intro h; cases h
        · intro _
          constructor
          · intro h; cases h
          · intro _; exact ⟨hin, rfl⟩
        · intro h
          rw [countDispatch_cons_self, countDispatch_nil] at h
          cases h
      · -- dispatch succeeds: t is removed and never re-dispatched
        rw [if_pos rfl]
        have hzero : countDispatch
            (processSigsTags exec (removeTag inP t) rest).2.1 .CodeSigned t = 0 := by
          apply countDispatch_eq_zero
          intro d hd he
          have := processSigsTags_dispatch_mem exec rest _ d hd
          rw [he] at this
          exact hnd'.1 this
        refine ⟨?_, ?_, ?_, ?_⟩
        · rw [countDispatch_cons_self, hzero]
        · intro _; rw [countDispatch_cons_self, hzero]
        · intro _
          refine ⟨fun _ hmem => ?_, fun h => by cases h⟩
          exact not_mem_removeTag_self
            (processSigsTags_inProgress_subset exec rest _ t hmem)
        · intro h
          rw [countDispatch_cons_self, hzero] at h
          cases h
    · -- t occurs later in the list
      have htne : t ≠ t' := fun he => hnd'.1 (he ▸ hr)
      have hdne : (BuildAction.CodeSigned, t') ≠ (BuildAction.CodeSigned, t) := by
        intro h
        exact htne (congrArg Prod.snd h).symm
      simp only [processSigsTags]
      split
      · rcases hex : exec .CodeSigned t' with _ | _
        · -- the head dispatch fails: t is never dispatched and survives
          rw [if_neg (by decide)]
          refine ⟨?_, ?_, ?_, ?_⟩
          · rw [countDispatch_cons_of_ne _ _ _ _ hdne, countDispatch_nil]
            omega
          · intro h; cases h
          · intro h
            rw [countDispatch_cons_of_ne _ _ _ _ hdne, countDispatch_nil] at h
            cases h
          · intro _
            exact ⟨hin, fun h => by cases h⟩
        · -- the head dispatch succeeds: recurse
          rw [if_pos rfl]
          have hin' : t ∈ removeTag inP t' := mem_removeTag.mpr ⟨hin, htne⟩
          obtain ⟨s1, s2, s3, s4⟩ :=
            processSigsTags_spec exec rest (removeTag inP t') hnd'.2 t hr hin'
          rw [countDispatch_cons_of_ne _ _ _ _ hdne]
          exact ⟨s1, s2, s3, s4⟩
      · -- head tag not in progress: only a warning, recurse unchanged
        exact processSigsTags_spec exec rest inP hnd'.2 t hr hin

theorem mem_insertTag {s : List String} {v u : String} :
    u ∈ insertTag s v ↔ u ∈ s ∨ u = v := by
  unfold insertTag
  split
  · rename_i hv
    constructor
    · exact fun h => Or.inl h
    · rintro (h | rfl)
      · exact h
      · exact hv
  · simp

/-- Every dispatch of the source-repository loop names one of the processed
tags. -/
theorem processBitcoinTags_dispatch_mem (exec : BuildAction → String → Bool) :
    ∀ (tags : List String) (inP : List String) (d : BuildAction × String),
      d ∈ (processBitcoinTags exec inP tags).2.1 → d.2 ∈ tags
  | [], _, _, h => by simp [processBitcoinTags] at h
  | t :: rest, inP, d, h => by
    simp only [processBitcoinTags] at h
    split at h
    · split at h
      · rcases List.mem_cons.mp h with h | h
        · subst h; simp
        · rcases List.mem_cons.mp h with h | h
          · subst h; simp
          · exact List.mem_cons_of_mem _
              (processBitcoinTags_dispatch_mem exec rest _ d h)
      · rcases List.mem_cons.mp h with h | h
        · subst h; simp
        · simp only [List.mem_singleton] at h
          subst h; simp
    · simp only [List.mem_singleton] at h
      subst h; simp

/-- The source-repository loop never drops an in-progress tag. -/
theorem processBitcoinTags_inProgress_mono (exec : BuildAction → String → Bool) :
    ∀ (tags : List String) (inP : List String) (u : String),
      u ∈ inP → u ∈ (processBitcoinTags exec inP tags).1
  | [], _, _, h => h
  | t :: rest, inP, u, h => by
    simp only [processBitcoinTags]
    split
    · split
      · exact processBitcoinTags_inProgress_mono exec rest _ u
          (mem_insertTag.mpr (Or.inl h))
      · exact mem_insertTag.mpr (Or.inl h)
    · exact mem_insertTag.mpr (Or.inl h)

/-- Behaviour of the source-repository loop for one newly-seen tag: Build is
dispatched at most once, exactly once (followed by the attestation, with the
tag in progress) when the whole cycle succeeds; a failed Build means no
attestation for that tag, and if its Build was dispatched the cycle aborts
on it with the tag kept in progress; an undispatched tag means some earlier
tag aborted the cycle, and the tag's in-progress status is unchanged. -/
theorem processBitcoinTags_spec (exec : BuildAction → String → Bool) :
    ∀ (tags : List String) (inP : List String), tags.Nodup → ∀ t ∈ tags,
      countDispatch (processBitcoinTags exec inP tags).2.1 .Build t ≤ 1 ∧
      ((processBitcoinTags exec inP tags).2.2 = none →
        countDispatch (processBitcoinTags exec inP tags).2.1 .Build t = 1 ∧
        countDispatch (processBitcoinTags exec inP tags).2.1 .NonCodeSigned t = 1 ∧
        t ∈ (processBitcoinTags exec inP tags).1) ∧
      (exec .Build t = false →
        countDispatch (processBitcoinTags exec inP tags).2.1 .NonCodeSigned t = 0) ∧
      (countDispatch (processBitcoinTags exec inP tags).2.1 .Build t = 1 →
        t ∈ (processBitcoinTags exec inP tags).1 ∧
        (exec .Build t = false →
          (processBitcoinTags exec inP tags).2.2 = some (.Build, t))) ∧
      (countDispatch (processBitcoinTags exec inP tags).2.1 .Build t = 0 →
        (processBitcoinTags exec inP tags).2.2 ≠ none ∧
        countDispatch (processBitcoinTags exec inP tags).2.1 .NonCodeSigned t = 0 ∧
        (t ∈ (processBitcoinTags exec inP tags).1 ↔ t ∈ inP))
  | [], _, _, t, ht => absurd ht (List.not_mem_nil t)
  | t' :: rest, inP, hnd, t, ht => by
    have hnd' := List.nodup_cons.mp hnd
    have hBN : (BuildAction.Build, t') ≠ (BuildAction.NonCodeSigned, t) := by
      intro h
      cases congrArg Prod.fst h
    rcases List.mem_cons.mp ht with he | hr
    · -- t is the head tag
      subst he
      simp only [processBitcoinTags]
      rcases hb : exec .Build t with _ | _
      · -- Build fails: single Build dispatch, abort, tag kept in progress
        rw [if_neg (by decide)]
        have hc : countDispatch [(BuildAction.Build, t)] .Build t = 1 := by
          rw [countDispatch_cons_self, countDispatch_nil]
        refine ⟨by rw [hc], ?_, ?_, ?_, ?_⟩
        · intro h; cases h
        · intro _
          rw [countDispatch_cons_of_ne _ _ _ _ hBN, countDispatch_nil]
        · intro _
          exact ⟨mem_insertTag.mpr (Or.inr rfl), fun _ => rfl⟩
        · intro h
          rw [hc] at h
          cases h
      · rw [if_pos rfl]
        rcases hn : exec .NonCodeSigned t with _ | _
        · -- attestation fails: abort, tag kept in progress
          rw [if_neg (by decide)]
          have hc : countDispatch [(BuildAction.Build, t), (BuildAction.NonCodeSigned, t)]
              .Build t = 1 := by
            rw [countDispatch_cons_self,
              countDispatch_cons_of_ne _ _ _ _ (by intro h; cases congrArg Prod.fst h),
              countDispatch_nil]
          refine ⟨by rw [hc], ?_, ?_, ?_, ?_⟩
          · intro h; cases h
          · intro h; cases h
          · intro _
            exact ⟨mem_insertTag.mpr (Or.inr rfl), fun h => by cases h⟩
          · intro h
            rw [hc] at h
            cases h
        · -- both stages succeed: recurse over the rest
          rw [if_pos rfl]
          have hz : ∀ s : BuildAction, countDispatch
              (processBitcoinTags exec (insertTag inP t) rest).2.1 s t = 0 := by
            intro s
            apply countDispatch_eq_zero
            intro d hd he
            have := processBitcoinTags_dispatch_mem exec rest _ d hd
            rw [he] at this
            exact hnd'.1 this
          have hcB : countDispatch ((BuildAction.Build, t) ::
              (BuildAction.NonCodeSigned, t) ::
              (processBitcoinTags exec (insertTag inP t) rest).2.1) .Build t = 1 := by
            rw [countDispatch_cons_self, countDispatch_cons_of_ne _ _ _ _
              (by intro h; cases congrArg Prod.fst h), hz]
          have hcN : countDispatch ((BuildAction.Build, t) ::
              (BuildAction.NonCodeSigned, t) ::
              (processBitcoinTags exec (insertTag inP t) rest).2.1) .NonCodeSigned t = 1 := by
            rw [countDispatch_cons_of_ne _ _ _ _
              (by intro h; cases congrArg Prod.fst h),
              countDispatch_cons_self, hz]
          have hmem : t ∈ (processBitcoinTags exec (insertTag inP t) rest).1 :=
            processBitcoinTags_inProgress_mono exec rest _ t
              (mem_insertTag.mpr (Or.inr rfl))
          refine ⟨by rw [hcB], ?_, ?_, ?_, ?_⟩
          · intro _
            exact ⟨hcB, hcN, hmem⟩
          · intro h; cases h
          · intro _
            exact ⟨hmem, fun h => by cases h⟩
          · intro h
            rw [hcB] at h
            cases h
    · -- t occurs later in the list
      have htne : t ≠ t' := fun he => hnd'.1 (he ▸ hr)
      have hne1 : (BuildAction.Build, t') ≠ (BuildAction.Build, t) := by
        intro h
        exact htne (congrArg Prod.snd h).symm
      have hne2 : (BuildAction.NonCodeSigned, t') ≠ (BuildAction.NonCodeSigned, t) := by
        intro h
        exact htne (congrArg Prod.snd h).symm
      have hne3 : (BuildAction.Build, t') ≠ (BuildAction.NonCodeSigned, t) := by
        intro h
        cases congrArg Prod.fst h
      have hne4 : (BuildAction.NonCodeSigned, t') ≠ (BuildAction.Build, t) := by
        intro h
        cases congrArg Prod.fst h
      have hmem' : t ∈ insertTag inP t' ↔ t ∈ inP := by
        rw [mem_insertTag]
        exact ⟨fun h => h.resolve_right htne, Or.inl⟩
      simp only [processBitcoinTags]
      rcases hb : exec .Build t' with _ | _
      · -- head Build fails: nothing is dispatched for t
        rw [if_neg (by decide)]
        have hcB : countDispatch [(BuildAction.Build, t')] .Build t = 0 := by
          rw [countDispatch_cons_of_ne _ _ _ _ hne1, countDispatch_nil]
        have hcN : countDispatch [(BuildAction.Build, t')] .NonCodeSigned t = 0 := by
          rw [countDispatch_cons_of_ne _ _ _ _ hne3, countDispatch_nil]
        refine ⟨by rw [hcB]; omega, ?_, ?_, ?_, ?_⟩
        · intro h; cases h
        · intro _; exact hcN
        · intro h
          rw [hcB] at h
          cases h
        · intro _
          exact ⟨fun h => Option.noConfusion h, hcN, hmem'⟩
      · rw [if_pos rfl]
        rcases hn : exec .NonCodeSigned t' with _ | _
        · -- head attestation fails: nothing is dispatched for t
          rw [if_neg (by decide)]
          have hcB : countDispatch [(BuildAction.Build, t'), (BuildAction.NonCodeSigned, t')]
              .Build t = 0 := by
            rw [countDispatch_cons_of_ne _ _ _ _ hne1,
              countDispatch_cons_of_ne _ _ _ _ hne4, countDispatch_nil]
          have hcN : countDispatch [(BuildAction.Build, t'), (BuildAction.NonCodeSigned, t')]
              .NonCodeSigned t = 0 := by
            rw [countDispatch_cons_of_ne _ _ _ _ hne3,
              countDispatch_cons_of_ne _ _ _ _ hne2, countDispatch_nil]
          refine ⟨by rw [hcB]; omega, ?_, ?_, ?_, ?_⟩
          · intro h; cases h
          · intro _; exact hcN
          · intro h
            rw [hcB] at h
            cases h
          · intro _
            exact ⟨fun h => Option.noConfusion h, hcN, hmem'⟩
        · -- head succeeds fully: recurse
          rw [if_pos rfl]
          obtain ⟨s1, s2, s3, s4, s5⟩ :=
            processBitcoinTags_spec exec rest (insertTag inP t') hnd'.2 t hr
          rw [countDispatch_cons_of_ne _ _ _ _ hne1,
            countDispatch_cons_of_ne _ _ _ _ hne4,
            countDispatch_cons_of_ne _ _ _ _ hne3,
            countDispatch_cons_of_ne _ _ _ _ hne2]
          refine ⟨s1, s2, s3, s4, ?_⟩
          · intro h
            obtain ⟨h1, h2, h3⟩ := s5 h
            exact ⟨h1, h2, h3.trans hmem'⟩

/-! ### The write order is a total preorder -/

instance : IsTotal String vle := by
  constructor
  intro a b
  unfold vle
  rcases h : compare_versions a b with _ | _ | _
  · left; simp [h]
  · left; simp [h]
  · right
    rw [compare_versions_swap, h]
    decide

instance : IsTrans String vle := by
  constructor
  intro a b c hab hbc
  unfold vle at *
  rcases h1 : compare_versions a b with _ | _ | _
  · rcases h2 : compare_versions b c with _ | _ | _
    · rw [compare_versions_lt_trans h1 h2]
      decide
    · rw [compare_versions_congr_right h2, h1]
      decide
    · exact absurd h2 hbc
  · rw [compare_versions_congr_left h1]
    exact hbc
  · exact absurd h1 hab

/-! ## Claim theorems -/

/-- C7: when all numeric components are equal, a tag with no rc marker
compares greater than the same version with any rc marker, and between two
rc tags the higher rc number compares greater; an absent third numeric
component compares less than any present value at that position; and the
four concrete comparisons from the spec hold. -/
theorem c7_version_comparison_algorithm :
    ∀ a b : String,
      ((parse_version a).1 = (parse_version b).1 → (parse_version a).2 = none →
        ∀ r, (parse_version b).2 = some r → compare_versions a b = .gt) ∧
      (∀ ra rb, (parse_version a).1 = (parse_version b).1 →
        (parse_version a).2 = some ra → (parse_version b).2 = some rb →
        rb < ra → compare_versions a b = .gt) ∧
      ((parse_version a).1.take 2 = (parse_version b).1.take 2 →
        (parse_version a).1.get? 2 = none →
        ∀ k, (parse_version b).1.get? 2 = some k → compare_versions a b = .lt) ∧
      compare_versions "v0.21.0" "v0.28.0rc1" = .lt ∧
      compare_versions "v0.28.0rc1" "v0.28.0" = .lt ∧
      compare_versions "v0.28.0rc2" "v0.28.0rc1" = .gt ∧
      compare_versions "v0.28.0" "v0.28.0" = .eq := by
  intro a b
  refine ⟨?_, ?_, ?_, by decide, by decide, by decide, by decide⟩
  · intro h1 h2 r h3
    have e1 : cmpListNat ((parse_version a).1.take 2)
        ((parse_version b).1.take 2) = .eq :=
      (cmpListNat_eq_iff _ _).mpr (by rw [h1])
    have e2 : cmpOptNat ((parse_version a).1.get? 2)
        ((parse_version b).1.get? 2) = .eq :=
      (cmpOptNat_eq_iff _ _).mpr (by rw [h1])
    simp only [compare_versions, e1, e2, h2, h3, cmpRc]
  · intro ra rb h1 h2 h3 h4
    have e1 : cmpListNat ((parse_version a).1.take 2)
        ((parse_version b).1.take 2) = .eq :=
      (cmpListNat_eq_iff _ _).mpr (by rw [h1])
    have e2 : cmpOptNat ((parse_version a).1.get? 2)
        ((parse_version b).1.get? 2) = .eq :=
      (cmpOptNat_eq_iff _ _).mpr (by rw [h1])
    simp only [compare_versions, e1, e2, h2, h3, cmpRc]
    exact (cmpNat_gt_iff ra rb).mpr h4
  · intro h1 h2 k h3
    have e1 : cmpListNat ((parse_version a).1.take 2)
        ((parse_version b).1.take 2) = .eq :=
      (cmpListNat_eq_iff _ _).mpr (by rw [h1])
    simp only [compare_versions, e1, h2, h3, cmpOptNat]

/-- C7 witness: the general parts applied at concrete tags. -/
theorem c7_version_comparison_algorithm_witness :
    compare_versions "v1.2.3" "v1.2.3rc1" = .gt ∧
    compare_versions "v1.2.3rc2" "v1.2.3rc1" = .gt ∧
    compare_versions "v1.2" "v1.2.1" = .lt :=
  ⟨(c7_version_comparison_algorithm "v1.2.3" "v1.2.3rc1").1
      (by decide) (by decide) 1 (by decide),
   (c7_version_comparison_algorithm "v1.2.3rc2" "v1.2.3rc1").2.1
      2 1 (by decide) (by decide) (by decide) (by decide),
   (c7_version_comparison_algorithm "v1.2" "v1.2.1").2.2.1
      (by decide) (by decide) 1 (by decide)⟩

/-- C8: `compare_versions` returns exactly one of the three orderings,
swapping the arguments reverses the result, and each of the three outcomes
is transitive — the comparator is a total preorder on tag strings. -/
theorem c8_comparator_total_preorder :
    ∀ a b c : String,
      (compare_versions a b = .lt ∨ compare_versions a b = .eq ∨
        compare_versions a b = .gt) ∧
      compare_versions b a = (compare_versions a b).swap ∧
      (compare_versions a b = .lt → compare_versions b c = .lt →
        compare_versions a c = .lt) ∧
      (compare_versions a b = .eq → compare_versions b c = .eq →
        compare_versions a c = .eq) ∧
      (compare_versions a b = .gt → compare_versions b c = .gt →
        compare_versions a c = .gt) := by
  intro a b c
  refine ⟨?_, compare_versions_swap a b, ?_, ?_, ?_⟩
  · rcases compare_versions a b with _ | _ | _
    · exact Or.inl rfl
    · exact Or.inr (Or.inl rfl)
    · exact Or.inr (Or.inr rfl)
  · exact fun h1 h2 => compare_versions_lt_trans h1 h2
  · intro h1 h2
    rw [compare_versions_congr_left h1]
    exact h2
  · intro h1 h2
    have hba : compare_versions b a = .lt := by
      rw [compare_versions_swap, h1]
      rfl
    have hcb : compare_versions c b = .lt := by
      rw [compare_versions_swap, h2]
      rfl
    have := compare_versions_lt_trans hcb hba
    rw [compare_versions_swap, this]
    rfl

/-- C8 witness: transitivity of `Less` at three concrete tags. -/
theorem c8_comparator_total_preorder_witness :
    compare_versions "v1.0" "v3.0" = .lt :=
  (c8_comparator_total_preorder "v1.0" "v2.0" "v3.0").2.2.1
    (by decide) (by decide)

/-- The dotted components of a tag string, exactly as `parse_version`
splits them before numeric parsing. -/
def versionComponents (v : String) : List (List Char) :=
  splitOnChar '.' ((splitRc (stripV v.data)).headD [])

/-- C9: parsing is total — every input yields a component list where each
dotted component that fails to parse as a `u32` contributes `0` (and ones
that parse contribute their value), and comparison is defined even on fully
malformed tags. -/
theorem c9_parse_total_defaults_zero :
    ∀ (v : String) (i : Nat),
      (parse_version v).1.get? i =
        ((versionComponents v).get? i).map (fun s => (parseU32 s).getD 0) ∧
      (∀ s, (versionComponents v).get? i = some s → parseU32 s = none →
        (parse_version v).1.get? i = some 0) ∧
      parse_version "v1..2" = ([1, 0, 2], none) ∧
      parse_version "va.b.c" = ([0, 0, 0], none) ∧
      compare_versions "garbage" "also-garbage" = .eq := by
  intro v i
  have h1 : (parse_version v).1.get? i =
      ((versionComponents v).get? i).map (fun s => (parseU32 s).getD 0) := by
    show ((versionComponents v).map (fun s => (parseU32 s).getD 0)).get? i = _
    rw [List.get?_map]
  refine ⟨h1, ?_, by decide, by decide, by decide⟩
  intro s hs hn
  rw [h1, hs]
  simp [hn]

/-- C9 witness: the default-to-zero clause at a malformed component. -/
theorem c9_parse_total_defaults_zero_witness :
    (parse_version "v1.x.3").1.get? 1 = some 0 :=
  (c9_parse_total_defaults_zero "v1.x.3" 1).2.1 ['x'] (by decide) (by decide)

/-- C10: `Builder::new` rejects every version comparing less than `"v21.0"`,
in particular the empty version string used for `Setup`/`Clean` and by
`initialize_builder`, and tags such as `v0.28.0` that lie strictly between
`v0.21.0` and `v21.0`, even though the error message names `v0.21.0` as the
minimum. -/
theorem c10_builder_version_guard :
    ∀ (v : String) (a : BuildAction) (cfg : Config),
      (compare_versions v "v21.0" = .lt →
        Builder.new v a cfg = .error "Can't build versions earlier than v0.21.0") ∧
      Builder.new "" a cfg = .error "Can't build versions earlier than v0.21.0" ∧
      initialize_builder cfg = .error "Can't build versions earlier than v0.21.0" ∧
      cleanCommandBuilder cfg = .error "Can't build versions earlier than v0.21.0" ∧
      compare_versions "v0.28.0" "v21.0" = .lt ∧
      compare_versions "v0.28.0" "v0.21.0" = .gt := by
  intro v a cfg
  have herr : ∀ (w : String) (b : BuildAction),
      compare_versions w "v21.0" = .lt →
      Builder.new w b cfg = .error "Can't build versions earlier than v0.21.0" := by
    intro w b h
    unfold Builder.new
    rw [if_pos h]
  refine ⟨herr v a, herr "" a (by decide), herr "" .Setup (by decide),
    herr "" .Clean (by decide), by decide, by decide⟩

/-- C10 witness: a concrete low version is rejected. -/
theorem c10_builder_version_guard_witness :
    Builder.new "v20.0" BuildAction.Build
      ⟨"bitcoin", "bitcoin", "bitcoin-core", "bitcoin-detached-sigs",
        300, "", "", "", false⟩ =
      .error "Can't build versions earlier than v0.21.0" :=
  (c10_builder_version_guard "v20.0" BuildAction.Build _).1 (by decide)

/-- C5: diff-and-merge returns as newly seen exactly the fetched tags not
already in the existing set, in fetch order; the merged set never loses a
previously-known tag; and the two-run scenario `{v27.1}` then
`{v27.1, v27.2}` reports exactly `v27.2` on the second run. -/
theorem c5_diff_and_merge :
    (∀ (seen refs : List String), (refs.map stripName).Nodup →
      (checkForNewTags seen refs).2 =
        (refs.map stripName).filter (fun t => decide (t ∉ seen))) ∧
    (∀ (seen refs : List String) (x : String), x ∈ seen →
      x ∈ (checkForNewTags seen refs).1) ∧
    (checkForNewTags [] ["refs/tags/v27.1"]).2 = ["v27.1"] ∧
    (checkForNewTags (checkForNewTags [] ["refs/tags/v27.1"]).1
      ["refs/tags/v27.1", "refs/tags/v27.2"]).2 = ["v27.2"] := by
  refine ⟨?_, ?_, by decide, by decide⟩
  · intro seen refs h
    exact checkForNewTags_snd_eq_filter refs seen h
  · intro seen refs x h
    exact mem_checkForNewTags_of_seen h

/-- C5 witness: the fetch-order clause at a concrete second run. -/
theorem c5_diff_and_merge_witness :
    (checkForNewTags ["v27.1"] ["refs/tags/v27.1", "refs/tags/v27.2"]).2 =
      (["refs/tags/v27.1", "refs/tags/v27.2"].map stripName).filter
        (fun t => decide (t ∉ (["v27.1"] : List String))) :=
  c5_diff_and_merge.1 ["v27.1"] ["refs/tags/v27.1", "refs/tags/v27.2"]
    (by decide)

/-- Two sorted permutations of a tag list with no ties between distinct
tags are equal (antisymmetry of the write order, localized to the tags at
hand: `compare_versions` is only a preorder globally). -/
theorem sorted_perm_eq_of_no_ties :
    ∀ (l1 l2 : List String), l1.Perm l2 →
      List.Sorted vle l1 → List.Sorted vle l2 →
      (∀ a ∈ l1, ∀ b ∈ l1, compare_versions a b = .eq → a = b) →
      l1 = l2
  | [], _, hp, _, _, _ => (hp.symm.eq_nil).symm
  | _ :: _, [], hp, _, _, _ => by cases hp.eq_nil
  | a :: t1, b :: t2, hp, hs1, hs2, hanti => by
    obtain ⟨ha, ht1⟩ := List.sorted_cons.mp hs1
    obtain ⟨hb, ht2⟩ := List.sorted_cons.mp hs2
    have hab : a = b := by
      by_contra hne
      have haI : a ∈ t2 := by
        rcases List.mem_cons.mp (hp.subset (List.mem_cons_self a t1)) with h | h
        · exact absurd h hne
        · exact h
      have hbI : b ∈ t1 := by
        rcases List.mem_cons.mp (hp.symm.subset (List.mem_cons_self b t2)) with h | h
        · exact absurd h.symm hne
        · exact h
      have h1 : vle a b := ha b hbI
      have h2 : vle b a := hb a haI
      unfold vle at h1 h2
      have heq : compare_versions a b = .eq := by
        rcases hcv : compare_versions a b with _ | _ | _
        · exfalso
          apply h2
          rw [compare_versions_swap, hcv]
          rfl
        · rfl
        · exact absurd hcv h1
      exact hne (hanti a (List.mem_cons_self a t1) b
        (List.mem_cons_of_mem a hbI) heq)
    subst hab
    have hpt : t1.Perm t2 := (List.perm_cons a).mp hp
    rw [sorted_perm_eq_of_no_ties t1 t2 hpt ht1 ht2
      (fun x hx y hy => hanti x (List.mem_cons_of_mem a hx)
        y (List.mem_cons_of_mem a hy))]

/-- C6 counterexample: `compare_versions` is only a preorder — the distinct
tags `v1.0` and `01.0` compare `Equal` — so the stable sort leaves them in
the `HashSet`'s arbitrary iteration order.  Both enumerations of the tag
set {`v1.0`, `01.0`} persist as sorted, duplicate-free files, but with
different bytes; since the enumeration may differ between the two passes,
the round trip is not guaranteed byte-identical. -/
theorem c6_counterexample_tied_tags_nondeterministic_bytes :
    compare_versions "v1.0" "01.0" = .eq ∧
    "v1.0" ≠ "01.0" ∧
    (["v1.0", "01.0"] : List String).Perm ["01.0", "v1.0"] ∧
    writeKnownTags ["v1.0", "01.0"] = ["v1.0", "01.0"] ∧
    writeKnownTags ["01.0", "v1.0"] = ["01.0", "v1.0"] ∧
    List.Sorted vle (writeKnownTags ["v1.0", "01.0"]) ∧
    List.Sorted vle (writeKnownTags ["01.0", "v1.0"]) ∧
    readKnownTags (writeKnownTags ["v1.0", "01.0"]) =
      writeKnownTags ["v1.0", "01.0"] ∧
    fileOf (writeKnownTags ["01.0", "v1.0"]) ≠
      fileOf (writeKnownTags ["v1.0", "01.0"]) := by
  decide

/-- C6 (amended): persist writes the full merged set — a sorted,
duplicate-free permutation of it, one tag per line, whatever enumeration
the `HashSet` yields — and a second load → diff-and-merge → persist pass
over its own output discovers nothing new and rewrites a sorted permutation
of the same set; the file is byte-identical whenever the set contains no
two distinct tags comparing `Equal` (the enumeration order of such ties is
the only freedom). -/
theorem c6_persist_sorted_setwise_idempotent :
    ∀ (file refs iter iter2 : List String),
      iter.Perm (checkForNewTags (readKnownTags file) refs).1 →
      iter2.Perm (writeKnownTags iter) →
      (writeKnownTags iter).Perm (checkForNewTags (readKnownTags file) refs).1 ∧
      List.Sorted vle (writeKnownTags iter) ∧
      (writeKnownTags iter).Nodup ∧
      readKnownTags (writeKnownTags iter) = writeKnownTags iter ∧
      checkForNewTags (readKnownTags (writeKnownTags iter)) refs =
        (writeKnownTags iter, []) ∧
      (writeKnownTags iter2).Perm (writeKnownTags iter) ∧
      List.Sorted vle (writeKnownTags iter2) ∧
      ((∀ a ∈ iter, ∀ b ∈ iter, compare_versions a b = .eq → a = b) →
        writeKnownTags iter2 = writeKnownTags iter ∧
        fileOf (writeKnownTags iter2) = fileOf (writeKnownTags iter)) := by
  intro file refs iter iter2 hiter hiter2
  have hM_nodup : (checkForNewTags (readKnownTags file) refs).1.Nodup :=
    checkForNewTags_fst_nodup (readKnownTags_nodup file)
  have hpw : (writeKnownTags iter).Perm iter := List.perm_insertionSort vle iter
  have hperm1 : (writeKnownTags iter).Perm
      (checkForNewTags (readKnownTags file) refs).1 := hpw.trans hiter
  have hnodup : (writeKnownTags iter).Nodup := hperm1.nodup_iff.mpr hM_nodup
  have hsorted : List.Sorted vle (writeKnownTags iter) :=
    List.sorted_insertionSort vle iter
  have hread : readKnownTags (writeKnownTags iter) = writeKnownTags iter :=
    readKnownTags_of_nodup hnodup
  have hmem : ∀ r ∈ refs, stripName r ∈ readKnownTags (writeKnownTags iter) := by
    intro r hr
    rw [hread]
    exact hperm1.mem_iff.mpr (mem_checkForNewTags_of_ref refs _ r hr)
  have hcheck : checkForNewTags (readKnownTags (writeKnownTags iter)) refs =
      (writeKnownTags iter, []) := by
    rw [checkForNewTags_of_all_seen refs _ hmem, hread]
  have hpw2 : (writeKnownTags iter2).Perm iter2 := List.perm_insertionSort vle iter2
  have hperm2 : (writeKnownTags iter2).Perm (writeKnownTags iter) :=
    hpw2.trans hiter2
  have hsorted2 : List.Sorted vle (writeKnownTags iter2) :=
    List.sorted_insertionSort vle iter2
  refine ⟨hperm1, hsorted, hnodup, hread, hcheck, hperm2, hsorted2, ?_⟩
  intro hanti
  have hanti2 : ∀ a ∈ writeKnownTags iter2, ∀ b ∈ writeKnownTags iter2,
      compare_versions a b = .eq → a = b := by
    intro a haa b hbb
    exact hanti a (hpw.mem_iff.mp (hiter2.mem_iff.mp (hpw2.mem_iff.mp haa)))
      b (hpw.mem_iff.mp (hiter2.mem_iff.mp (hpw2.mem_iff.mp hbb)))
  have heq := sorted_perm_eq_of_no_ties (writeKnownTags iter2)
    (writeKnownTags iter) hperm2 hsorted2 hsorted hanti2
  exact ⟨heq, by rw [heq]⟩

/-- C6 witness: a second pass enumerating the persisted set backwards still
rewrites the identical file when the tags do not tie. -/
theorem c6_persist_sorted_setwise_idempotent_witness :
    writeKnownTags ["v27.2", "v27.1"] = writeKnownTags ["v27.1", "v27.2"] ∧
    fileOf (writeKnownTags ["v27.2", "v27.1"]) =
      fileOf (writeKnownTags ["v27.1", "v27.2"]) := by
  have h := c6_persist_sorted_setwise_idempotent []
    ["refs/tags/v27.1", "refs/tags/v27.2"] ["v27.1", "v27.2"]
    ["v27.2", "v27.1"] (by decide) (by decide)
  exact h.2.2.2.2.2.2.2 (by decide)

/-- C1 counterexample: with two newly-seen tags `v27.1`, `v27.2`, both in
the in-progress set, and a codesign dispatch that fails on `v27.1`, the tag
`v27.2` — newly seen and in progress — is never dispatched, contradicting
"dispatches BuildExecutor with stage AttestCodesigned exactly once" for it. -/
theorem c1_counterexample_aborted_tag_never_dispatched :
    "v27.2" ∈ (checkForNewTags []
      ["refs/tags/v27.1", "refs/tags/v27.2"]).2 ∧
    "v27.2" ∈ (["v27.1", "v27.2"] : List String) ∧
    countDispatch (checkAndProcessSigsTags (fun _ t => decide (t ≠ "v27.1"))
      [] ["v27.1", "v27.2"]
      ["refs/tags/v27.1", "refs/tags/v27.2"]).dispatches .CodeSigned "v27.2" = 0 ∧
    (checkAndProcessSigsTags (fun _ t => decide (t ≠ "v27.1"))
      [] ["v27.1", "v27.2"]
      ["refs/tags/v27.1", "refs/tags/v27.2"]).failed =
        some (.CodeSigned, "v27.1") := by
  decide

/-- C1 (amended): for every newly-seen tag in InProgressSet the codesign
dispatch happens at most once — exactly once when no dispatch in the cycle
fails; on success the tag is removed from InProgressSet; on failure the
error is reported (logged by the watcher loop), the tag stays in
InProgressSet, and the cycle aborts, so an undispatched in-progress tag
stays too, behind some failure. -/
theorem c1_codesign_dispatch_correlation :
    ∀ (exec : BuildAction → String → Bool) (seen inProgress refs : List String)
      (t : String), t ∈ (checkForNewTags seen refs).2 → t ∈ inProgress →
      countDispatch (checkAndProcessSigsTags exec seen inProgress refs).dispatches
        .CodeSigned t ≤ 1 ∧
      ((checkAndProcessSigsTags exec seen inProgress refs).failed = none →
        countDispatch (checkAndProcessSigsTags exec seen inProgress refs).dispatches
          .CodeSigned t = 1) ∧
      (countDispatch (checkAndProcessSigsTags exec seen inProgress refs).dispatches
          .CodeSigned t = 1 →
        (exec .CodeSigned t = true →
          t ∉ (checkAndProcessSigsTags exec seen inProgress refs).inProgress) ∧
        (exec .CodeSigned t = false →
          t ∈ (checkAndProcessSigsTags exec seen inProgress refs).inProgress ∧
          (checkAndProcessSigsTags exec seen inProgress refs).failed =
            some (.CodeSigned, t))) ∧
      (countDispatch (checkAndProcessSigsTags exec seen inProgress refs).dispatches
          .CodeSigned t = 0 →
        t ∈ (checkAndProcessSigsTags exec seen inProgress refs).inProgress ∧
        (checkAndProcessSigsTags exec seen inProgress refs).failed ≠ none) := by
  intro exec seen inProgress refs t ht hin
  have hnd : (checkForNewTags seen refs).2.Nodup :=
    (checkForNewTags_snd_nodup refs seen).1
  simpa only [checkAndProcessSigsTags] using
    processSigsTags_spec exec (checkForNewTags seen refs).2 inProgress hnd t ht hin

/-- C1 witness: a successful cycle dispatches the in-progress tag once and
removes it. -/
theorem c1_codesign_dispatch_correlation_witness :
    countDispatch (checkAndProcessSigsTags (fun _ _ => true) [] ["v27.1"]
      ["refs/tags/v27.1"]).dispatches .CodeSigned "v27.1" = 1 ∧
    "v27.1" ∉ (checkAndProcessSigsTags (fun _ _ => true) [] ["v27.1"]
      ["refs/tags/v27.1"]).inProgress := by
  have h := c1_codesign_dispatch_correlation (fun _ _ => true) [] ["v27.1"]
    ["refs/tags/v27.1"] "v27.1" (by decide) (by decide)
  have hone := h.2.1 (by decide)
  exact ⟨hone, (h.2.2.1 hone).1 rfl⟩

/-- C2 counterexample: with two newly-seen tags and a Build failure on the
first, the second tag of the same cycle is never built (and never even added
to InProgressSet), contradicting "other newly-seen tags in the same cycle
are still processed". -/
theorem c2_counterexample_build_failure_aborts_cycle :
    "v27.2" ∈ (checkForNewTags []
      ["refs/tags/v27.1", "refs/tags/v27.2"]).2 ∧
    countDispatch (checkAndProcessBitcoinTags (fun _ t => decide (t ≠ "v27.1"))
      [] [] ["refs/tags/v27.1", "refs/tags/v27.2"]).dispatches .Build "v27.2" = 0 ∧
    "v27.2" ∉ (checkAndProcessBitcoinTags (fun _ t => decide (t ≠ "v27.1"))
      [] [] ["refs/tags/v27.1", "refs/tags/v27.2"]).inProgress ∧
    (checkAndProcessBitcoinTags (fun _ t => decide (t ≠ "v27.1"))
      [] [] ["refs/tags/v27.1", "refs/tags/v27.2"]).failed =
        some (.Build, "v27.1") := by
  decide

/-- C2 (amended): each newly-seen tag's Build is dispatched at most once —
once, followed by one AttestNonCodesigned with the tag left in
InProgressSet, when the whole cycle succeeds; a tag whose Build fails gets
no AttestNonCodesigned, and if its Build was dispatched the cycle aborts on
it with the tag kept in InProgressSet; a tag whose Build was never
dispatched sits behind an earlier failure that aborted the cycle, its
in-progress membership unchanged. -/
theorem c2_build_failure_handling :
    ∀ (exec : BuildAction → String → Bool) (seen inProgress refs : List String)
      (t : String), t ∈ (checkForNewTags seen refs).2 →
      countDispatch (checkAndProcessBitcoinTags exec seen inProgress refs).dispatches
        .Build t ≤ 1 ∧
      ((checkAndProcessBitcoinTags exec seen inProgress refs).failed = none →
        countDispatch (checkAndProcessBitcoinTags exec seen inProgress refs).dispatches
          .Build t = 1 ∧
        countDispatch (checkAndProcessBitcoinTags exec seen inProgress refs).dispatches
          .NonCodeSigned t = 1 ∧
        t ∈ (checkAndProcessBitcoinTags exec seen inProgress refs).inProgress) ∧
      (exec .Build t = false →
        countDispatch (checkAndProcessBitcoinTags exec seen inProgress refs).dispatches
          .NonCodeSigned t = 0) ∧
      (countDispatch (checkAndProcessBitcoinTags exec seen inProgress refs).dispatches
          .Build t = 1 →
        t ∈ (checkAndProcessBitcoinTags exec seen inProgress refs).inProgress ∧
        (exec .Build t = false →
          (checkAndProcessBitcoinTags exec seen inProgress refs).failed =
            some (.Build, t))) ∧
      (countDispatch (checkAndProcessBitcoinTags exec seen inProgress refs).dispatches
          .Build t = 0 →
        (checkAndProcessBitcoinTags exec seen inProgress refs).failed ≠ none ∧
        countDispatch (checkAndProcessBitcoinTags exec seen inProgress refs).dispatches
          .NonCodeSigned t = 0 ∧
        (t ∈ (checkAndProcessBitcoinTags exec seen inProgress refs).inProgress ↔
          t ∈ inProgress)) := by
  intro exec seen inProgress refs t ht
  have hnd : (checkForNewTags seen refs).2.Nodup :=
    (checkForNewTags_snd_nodup refs seen).1
  simpa only [checkAndProcessBitcoinTags] using
    processBitcoinTags_spec exec (checkForNewTags seen refs).2 inProgress hnd t ht

/-- C2 witness: a successful cycle builds and attests the new tag once and
leaves it in InProgressSet. -/
theorem c2_build_failure_handling_witness :
    countDispatch (checkAndProcessBitcoinTags (fun _ _ => true) [] []
      ["refs/tags/v27.1"]).dispatches .Build "v27.1" = 1 ∧
    countDispatch (checkAndProcessBitcoinTags (fun _ _ => true) [] []
      ["refs/tags/v27.1"]).dispatches .NonCodeSigned "v27.1" = 1 ∧
    "v27.1" ∈ (checkAndProcessBitcoinTags (fun _ _ => true) [] []
      ["refs/tags/v27.1"]).inProgress := by
  have h := c2_build_failure_handling (fun _ _ => true) [] []
    ["refs/tags/v27.1"] "v27.1" (by decide)
  exact h.2.1 (by decide)

/-- C3 counterexample: a source cycle that discovers `v27.2` merges it into
the in-memory seen set but performs no known-tags file write at all,
contradicting "the merged known-tag set ... is persisted to its known-tags
file" after the cycle. -/
theorem c3_counterexample_cycle_never_persists :
    (checkAndProcessBitcoinTags (fun _ _ => true) ["v27.1"] []
      ["refs/tags/v27.1", "refs/tags/v27.2"]).fileWrites = [] ∧
    (checkAndProcessBitcoinTags (fun _ _ => true) ["v27.1"] []
      ["refs/tags/v27.1", "refs/tags/v27.2"]).seen = ["v27.1", "v27.2"] := by
  decide

/-- C3 (amended): the watcher's source cycles never write the known-tags
file; only the in-memory merged set is updated, independently of the build
executor's outcomes; persistence of the merged set happens only in the
startup fetch (`fetch_all_tags`). -/
theorem c3_persistence_only_at_startup :
    ∀ (exec exec2 : BuildAction → String → Bool)
      (seen inProgress refs file : List String),
      (checkAndProcessBitcoinTags exec seen inProgress refs).fileWrites = [] ∧
      (checkAndProcessBitcoinTags exec seen inProgress refs).seen =
        (checkForNewTags seen refs).1 ∧
      (checkAndProcessBitcoinTags exec seen inProgress refs).seen =
        (checkAndProcessBitcoinTags exec2 seen inProgress refs).seen ∧
      (fetchAllTagsRepo file refs).2 =
        writeKnownTags (checkForNewTags (readKnownTags file) refs).1 := by
  intro exec exec2 seen inProgress refs file
  refine ⟨rfl, rfl, rfl, ?_⟩
  simp only [fetchAllTagsRepo]
  rw [ingestRefs_eq_checkForNewTags]

/-- C4 counterexample: ingestion filters nothing — a fetched ref whose tag
name is a "no tag" sentinel string lands in the in-memory set and in the
persisted file. -/
theorem c4_counterexample_sentinel_not_filtered :
    "no_tag" ∈ (checkForNewTags [] ["refs/tags/no_tag"]).1 ∧
    (checkForNewTags [] ["refs/tags/no_tag"]).1 = ["no_tag"] ∧
    (fetchAllTagsRepo [] ["refs/tags/no_tag"]).2 = ["no_tag"] := by
  decide

/-- C4 (amended): ingestion performs no filtering whatsoever — every
fetched ref name, after stripping the `refs/tags/` prefix, is added to the
in-memory tag set, both in the watcher's cycle fetch and in the startup
fetch whose merged set is then persisted. -/
theorem c4_no_sentinel_filtering :
    ∀ (seen refs : List String) (r : String), r ∈ refs →
      stripName r ∈ (checkForNewTags seen refs).1 ∧
      ∀ file, stripName r ∈ (fetchAllTagsRepo file refs).1 := by
  intro seen refs r hr
  constructor
  · exact mem_checkForNewTags_of_ref refs seen r hr
  · intro file
    simp only [fetchAllTagsRepo]
    rw [ingestRefs_eq_checkForNewTags]
    exact mem_checkForNewTags_of_ref refs _ r hr

/-- C4 witness: a concrete fetched ref is ingested. -/
theorem c4_no_sentinel_filtering_witness :
    stripName "refs/tags/v27.1" ∈
      (checkForNewTags [] ["refs/tags/v27.1"]).1 :=
  (c4_no_sentinel_filtering [] ["refs/tags/v27.1"] "refs/tags/v27.1"
    (by decide)).1

end BGT
